import Mathlib

/-!
Verification of the streaming-response consumer of the pdf_learn_ai
frontend.  The definitions below are shallow embeddings of the
TypeScript source:

* src/frontend/src/services/api.ts
  (aiService.streamAnalyzePage, chatService.streamChat)
* src/frontend/src/components/AIPanel.tsx
  (parseAnalysisContent, analyzeCurrentPage)
* the ChatInterface component (saveChatAsNote, sendMessage)

Strings are modelled as lists of characters.
-/

namespace PdfAI

abbrev LC := List Char

def openTag : LC := "<think>".toList

def closeTag : LC := "</think>".toList

/-- Boolean substring test: does pat occur contiguously inside s. -/
def containsSub : LC → LC → Bool
  | [], pat => pat.isPrefixOf ([] : LC)
  | c :: t, pat => pat.isPrefixOf (c :: t) || containsSub t pat

/-- Split s at the first (leftmost) occurrence of pat, returning the part
before the occurrence and the part after it, as a regex engine scanning
left to right would. -/
def splitFirst (pat : LC) : LC → Option (LC × LC)
  | [] => if pat.isPrefixOf ([] : LC) then some ([], []) else none
  | c :: t =>
    if pat.isPrefixOf (c :: t) then some ([], (c :: t).drop pat.length)
    else (splitFirst pat t).map fun p => (c :: p.1, p.2)

theorem containsSub_length {s pat : LC} (h : containsSub s pat = true) :
    pat.length ≤ s.length := by
  induction s with
  | nil =>
    simp only [containsSub, Bool.or_eq_true] at h
    have := List.isPrefixOf_iff_prefix.mp h
    simpa using this.length_le
  | cons c t ih =>
    simp only [containsSub, Bool.or_eq_true] at h
    rcases h with h | h
    · have := List.isPrefixOf_iff_prefix.mp h
      simpa using this.length_le
    · exact Nat.le_succ_of_le (ih h)

theorem splitFirst_none {s pat : LC} (h : containsSub s pat = false) :
    splitFirst pat s = none := by
  induction s with
  | nil =>
    simp only [containsSub] at h
    simp [splitFirst, h]
  | cons c t ih =>
    simp only [containsSub, Bool.or_eq_false_iff] at h
    simp [splitFirst, h.1, ih h.2]

theorem splitFirst_length {pat s a b : LC} (hpat : pat ≠ [])
    (h : splitFirst pat s = some (a, b)) : b.length < s.length := by
  induction s generalizing a b with
  | nil =>
    have hpre : pat.isPrefixOf ([] : LC) = false := by
      cases pat with
      | nil => exact absurd rfl hpat
      | cons x xs => rfl
    simp [splitFirst, hpre] at h
  | cons c t ih =>
    by_cases hp : pat.isPrefixOf (c :: t) = true
    · simp only [splitFirst, hp, if_true, Option.some.injEq, Prod.mk.injEq] at h
      obtain ⟨_, hb⟩ := h
      subst hb
      have hlen : 1 ≤ pat.length := by
        cases pat with
        | nil => exact absurd rfl hpat
        | cons x xs => simp
      simp only [List.length_drop, List.length_cons]
      omega
    · rw [splitFirst, if_neg hp] at h
      cases hsf : splitFirst pat t with
      | none => rw [hsf] at h; simp at h
      | some p =>
        obtain ⟨a', b'⟩ := p
        rw [hsf] at h
        simp only [Option.map_some', Option.some.injEq, Prod.mk.injEq] at h
        obtain ⟨_, hb⟩ := h
        subst hb
        exact Nat.lt_succ_of_lt (ih hsf)

theorem pref_trans_left {l x y : LC} (h : l <+: x ++ y)
    (hl : l.length ≤ x.length) : l <+: x := by
  rw [List.prefix_iff_eq_take] at h ⊢
  rwa [List.take_append_of_le_length hl] at h

theorem pref_split {l x y : LC} (h : l <+: x ++ y) (hx : x.length ≤ l.length) :
    x <+: l ∧ l.drop x.length <+: y := by
  obtain ⟨t, ht⟩ := h
  constructor
  · rw [List.prefix_iff_eq_take]
    have h1 : (l ++ t).take x.length = l.take x.length :=
      List.take_append_of_le_length hx
    rw [ht] at h1
    rw [List.take_left] at h1
    exact h1
  · have h2 : (l ++ t).drop x.length = l.drop x.length ++ t :=
      List.drop_append_of_le_length hx
    rw [ht] at h2
    rw [List.drop_left] at h2
    exact ⟨t, h2.symm⟩

theorem pref_head {l s : LC} (h : l <+: s) (hne : l ≠ []) :
    s.head? = l.head? := by
  obtain ⟨t, ht⟩ := h
  subst ht
  cases l with
  | nil => exact absurd rfl hne
  | cons c cs => rfl

/-- A pattern whose later characters never repeat its head cannot begin
inside text that does not contain it and spill over into an adjacent
copy of its own proper prefix; appending that proper prefix therefore
creates no new occurrence. -/
theorem containsSub_append_dropLast {pat a : LC} (hpat : pat ≠ [])
    (hno : ∀ m, m < pat.length → 1 ≤ m →
      (pat.drop m).isPrefixOf pat.dropLast = false)
    (ha : containsSub a pat = false) :
    containsSub (a ++ pat.dropLast) pat = false := by
  induction a with
  | nil =>
    simp only [List.nil_append]
    by_contra hcon
    rw [Bool.not_eq_false] at hcon
    have hlen := containsSub_length hcon
    rw [List.length_dropLast] at hlen
    have : 1 ≤ pat.length := by
      cases pat with
      | nil => exact absurd rfl hpat
      | cons x xs => simp
    omega
  | cons c t ih =>
    simp only [containsSub, Bool.or_eq_false_iff] at ha
    simp only [containsSub, List.cons_append, Bool.or_eq_false_iff]
    refine ⟨?_, ih ha.2⟩
    by_contra hcon
    rw [Bool.not_eq_false] at hcon
    have hpre0 := List.isPrefixOf_iff_prefix.mp hcon
    have hpre : pat <+: (c :: t) ++ pat.dropLast := hpre0
    by_cases hle : pat.length ≤ (c :: t).length
    · have : pat <+: c :: t := pref_trans_left hpre hle
      rw [← List.isPrefixOf_iff_prefix] at this
      exact absurd this (by simp [ha.1])
    · push_neg at hle
      obtain ⟨_, hdrop⟩ := pref_split hpre (Nat.le_of_lt hle)
      have hm1 : 1 ≤ (c :: t).length := by simp
      have hddne : pat.drop (c :: t).length ≠ [] := by
        simp only [ne_eq, List.drop_eq_nil_iff, not_le]
        exact hle
      have := hno (c :: t).length hle hm1
      rw [← Bool.not_eq_true, List.isPrefixOf_iff_prefix] at this
      exact this (by
        obtain ⟨u, hu⟩ := hdrop
        exact ⟨u, hu⟩)

theorem take_agree {x pat r : LC} (hx : x ≠ []) (hpat : pat ≠ []) :
    (x ++ pat ++ r).take pat.length = (x ++ pat.dropLast).take pat.length := by
  by_cases hle : pat.length ≤ x.length
  · rw [List.append_assoc, List.take_append_of_le_length hle,
      List.take_append_of_le_length hle]
  · push_neg at hle
    have hx1 : 1 ≤ x.length := by
      cases x with
      | nil => exact absurd rfl hx
      | cons y ys => simp
    have hp1 : 1 ≤ pat.length := by
      cases pat with
      | nil => exact absurd rfl hpat
      | cons y ys => simp
    have hxall : x.take pat.length = x := List.take_of_length_le (Nat.le_of_lt hle)
    rw [List.append_assoc, List.take_append_eq_append_take,
      List.take_append_eq_append_take, List.take_append_eq_append_take, hxall]
    have h0 : pat.length - x.length - pat.length = 0 := by omega
    rw [h0, List.take_zero, List.append_nil]
    rw [List.dropLast_eq_take, List.take_take]
    have hmin : min (pat.length - x.length) (pat.length - 1) =
        pat.length - x.length := by omega
    rw [hmin]

/-- splitFirst finds exactly the marker occurrence separating a from r
when no occurrence starts earlier. -/
theorem splitFirst_exact {pat a r : LC} (hpat : pat ≠ [])
    (hno : containsSub (a ++ pat.dropLast) pat = false) :
    splitFirst pat (a ++ pat ++ r) = some (a, r) := by
  induction a with
  | nil =>
    cases pat with
    | nil => exact absurd rfl hpat
    | cons p ps =>
      have hpre : (p :: ps).isPrefixOf ((p :: ps) ++ r) = true :=
        List.isPrefixOf_iff_prefix.mpr (List.prefix_append _ _)
      have : splitFirst (p :: ps) (p :: (ps ++ r)) =
          some ([], (p :: (ps ++ r)).drop (p :: ps).length) := by
        rw [splitFirst, if_pos]
        exact hpre
      simp only [List.nil_append]
      rw [show (p :: ps) ++ r = p :: (ps ++ r) from rfl, this]
      rw [show p :: (ps ++ r) = (p :: ps) ++ r from rfl, List.drop_left]
  | cons c a' ih =>
    simp only [containsSub, List.cons_append, Bool.or_eq_false_iff] at hno
    have hfalse : pat.isPrefixOf (c :: (a' ++ (pat ++ r))) = false := by
      by_contra hcon
      rw [Bool.not_eq_false] at hcon
      have hpre : pat <+: (c :: a') ++ pat ++ r := by
        rw [List.append_assoc]
        exact List.isPrefixOf_iff_prefix.mp hcon
      have heq := List.prefix_iff_eq_take.mp hpre
      rw [take_agree (by simp) hpat] at heq
      have hthis : pat <+: (c :: a') ++ pat.dropLast := by
        nth_rewrite 1 [heq]
        exact List.take_prefix _ _
      rw [← List.isPrefixOf_iff_prefix] at hthis
      rw [show (c :: a') ++ pat.dropLast = c :: (a' ++ pat.dropLast) from rfl]
        at hthis
      have hh := hno.1
      rw [show a'.append pat.dropLast = a' ++ pat.dropLast from rfl] at hh
      exact absurd hthis (by simp [hh])
    have hgoal : splitFirst pat (c :: (a' ++ (pat ++ r))) =
        (splitFirst pat (a' ++ (pat ++ r))).map fun p => (c :: p.1, p.2) := by
      rw [splitFirst, if_neg (by simp [hfalse])]
    have hih := ih hno.2
    rw [List.append_assoc] at hih
    calc splitFirst pat ((c :: a') ++ pat ++ r)
        = splitFirst pat (c :: (a' ++ (pat ++ r))) := by
          rw [List.append_assoc]
          exact rfl
      _ = (splitFirst pat (a' ++ (pat ++ r))).map (fun p => (c :: p.1, p.2)) :=
          hgoal
      _ = some (c :: a', r) := by rw [hih]; rfl

theorem openTag_ne : openTag ≠ [] := by decide

theorem closeTag_ne : closeTag ≠ [] := by decide

theorem openTag_no_self : ∀ m, m < openTag.length → 1 ≤ m →
    (openTag.drop m).isPrefixOf openTag.dropLast = false := by decide

theorem closeTag_no_self : ∀ m, m < closeTag.length → 1 ≤ m →
    (closeTag.drop m).isPrefixOf closeTag.dropLast = false := by decide

theorem noNew_open {a : LC} (ha : containsSub a openTag = false) :
    containsSub (a ++ openTag.dropLast) openTag = false :=
  containsSub_append_dropLast openTag_ne openTag_no_self ha

theorem noNew_close {a : LC} (ha : containsSub a closeTag = false) :
    containsSub (a ++ closeTag.dropLast) closeTag = false :=
  containsSub_append_dropLast closeTag_ne closeTag_no_self ha

/-- A string free of both think markers. -/
def tagFree (s : LC) : Prop :=
  containsSub s openTag = false ∧ containsSub s closeTag = false

instance (s : LC) : Decidable (tagFree s) := by
  unfold tagFree
  infer_instance

/-!
The segment parser, translated from parseAnalysisContent
(AIPanel.tsx lines 41 to 57).

The JavaScript regex thinkingRegex scans left to right for the literal
marker and then, lazily, for the nearest later close marker; each
complete pair is one match, scanning resumes after it, and an open
marker with no later close marker matches nothing.  The functions below
implement exactly that scan; they carry a fuel argument (instantiated
with the input length, which bounds the number of matches) so that they
are structurally recursive and evaluate inside the kernel.
-/

/-- One pass of content.replace removing each matched pair. -/
def removeThinksF : Nat → LC → LC
  | 0, s => s
  | fuel+1, s =>
    match splitFirst openTag s with
    | none => s
    | some (pre, r1) =>
      match splitFirst closeTag r1 with
      | none => s
      | some (_, r2) => pre ++ removeThinksF fuel r2

def removeThinks (s : LC) : LC := removeThinksF s.length s

/-- The inner texts of the matched pairs of content.match, in order. -/
def extractThinksF : Nat → LC → List LC
  | 0, _ => []
  | fuel+1, s =>
    match splitFirst openTag s with
    | none => []
    | some (_, r1) =>
      match splitFirst closeTag r1 with
      | none => []
      | some (t, r2) => t :: extractThinksF fuel r2

def extractThinks (s : LC) : List LC := extractThinksF s.length s

/-- One pass of match.replace removing every single open or close
marker, as the second regex with the optional slash does. -/
def stripTagsF : Nat → LC → LC
  | 0, s => s
  | _+1, [] => []
  | fuel+1, c :: t =>
    if closeTag.isPrefixOf (c :: t) then stripTagsF fuel ((c :: t).drop closeTag.length)
    else if openTag.isPrefixOf (c :: t) then stripTagsF fuel ((c :: t).drop openTag.length)
    else c :: stripTagsF fuel t

def stripTags (s : LC) : LC := stripTagsF s.length s

/-- The character class trimmed by JavaScript String.prototype.trim. -/
def isJsWs (c : Char) : Bool :=
  let n := c.toNat
  n = 0x9 || n = 0xA || n = 0xB || n = 0xC || n = 0xD || n = 0x20 ||
  n = 0xA0 || n = 0x1680 || (0x2000 ≤ n && n ≤ 0x200A) || n = 0x2028 ||
  n = 0x2029 || n = 0x202F || n = 0x205F || n = 0x3000 || n = 0xFEFF

def jsTrim (s : LC) : LC :=
  ((s.dropWhile isJsWs).reverse.dropWhile isJsWs).reverse

/-- Array.prototype.join with a separator. -/
def joinSep (sep : LC) : List LC → LC
  | [] => []
  | [x] => x
  | x :: y :: xs => x ++ sep ++ joinSep sep (y :: xs)

def thinkSep : LC := "\n\n---\n\n".toList

structure ParsedContent where
  mainContent : LC
  thinking : LC
deriving Repr, DecidableEq

/-- parseAnalysisContent from AIPanel.tsx: thinking is the join of the
full matches with their markers stripped, mainContent is the input with
the matched ranges removed and then trimmed. -/
def parseAnalysisContent (s : LC) : ParsedContent :=
  { mainContent := jsTrim (removeThinks s)
    thinking :=
      joinSep thinkSep
        ((extractThinks s).map fun t => stripTags (openTag ++ t ++ closeTag)) }

theorem sanity_parse_simple :
    parseAnalysisContent "a<think>b</think>c".toList =
      { mainContent := "ac".toList, thinking := "b".toList } := by decide

theorem sanity_parse_open :
    parseAnalysisContent "a<think>b".toList =
      { mainContent := "a<think>b".toList, thinking := [] } := by decide

theorem removeThinksF_none {fuel : Nat} {s : LC}
    (h : splitFirst openTag s = none) : removeThinksF fuel s = s := by
  cases fuel with
  | zero => rfl
  | succ f => simp only [removeThinksF, h]

theorem removeThinksF_noclose {fuel : Nat} {s pre r1 : LC}
    (h1 : splitFirst openTag s = some (pre, r1))
    (h2 : splitFirst closeTag r1 = none) : removeThinksF fuel s = s := by
  cases fuel with
  | zero => rfl
  | succ f => simp only [removeThinksF, h1, h2]

theorem removeThinksF_step {fuel : Nat} {s pre r1 t r2 : LC}
    (h1 : splitFirst openTag s = some (pre, r1))
    (h2 : splitFirst closeTag r1 = some (t, r2)) :
    removeThinksF (fuel + 1) s = pre ++ removeThinksF fuel r2 := by
  simp only [removeThinksF, h1, h2]

theorem extractThinksF_none {fuel : Nat} {s : LC}
    (h : splitFirst openTag s = none) : extractThinksF fuel s = [] := by
  cases fuel with
  | zero => rfl
  | succ f => simp only [extractThinksF, h]

theorem extractThinksF_noclose {fuel : Nat} {s pre r1 : LC}
    (h1 : splitFirst openTag s = some (pre, r1))
    (h2 : splitFirst closeTag r1 = none) : extractThinksF fuel s = [] := by
  cases fuel with
  | zero => rfl
  | succ f => simp only [extractThinksF, h1, h2]

theorem extractThinksF_step {fuel : Nat} {s pre r1 t r2 : LC}
    (h1 : splitFirst openTag s = some (pre, r1))
    (h2 : splitFirst closeTag r1 = some (t, r2)) :
    extractThinksF (fuel + 1) s = t :: extractThinksF fuel r2 := by
  simp only [extractThinksF, h1, h2]

/-- The well formed rendering of alternating answer and reasoning spans:
each pair contributes its answer text, an open marker, its reasoning
text and a close marker; the trailing answer text follows. -/
def renderPieces : List (LC × LC) → LC → LC
  | [], tail => tail
  | (a, t) :: ps, tail => a ++ openTag ++ t ++ closeTag ++ renderPieces ps tail

/-- Well formedness of a decomposition: no span contains a marker. -/
def wfPieces (ps : List (LC × LC)) (tail : LC) : Prop :=
  (∀ p ∈ ps, tagFree p.1 ∧ tagFree p.2) ∧ tagFree tail

instance (ps : List (LC × LC)) (tail : LC) : Decidable (wfPieces ps tail) := by
  unfold wfPieces
  infer_instance

theorem renderPieces_cons (a t : LC) (ps : List (LC × LC)) (tail : LC) :
    renderPieces ((a, t) :: ps) tail =
      (a ++ openTag) ++ ((t ++ closeTag) ++ renderPieces ps tail) := by
  simp [renderPieces, List.append_assoc]

theorem removeThinksF_render : ∀ (ps : List (LC × LC)) (tail : LC) (fuel : Nat),
    (renderPieces ps tail).length ≤ fuel →
    (∀ p ∈ ps, containsSub p.1 openTag = false ∧
      containsSub p.2 closeTag = false) →
    (∀ g : Nat, removeThinksF g tail = tail) →
    removeThinksF fuel (renderPieces ps tail) =
      (ps.map Prod.fst).flatten ++ tail := by
  intro ps
  induction ps with
  | nil =>
    intro tail fuel _ _ htail
    simp [renderPieces, htail fuel]
  | cons p ps ih =>
    intro tail fuel hfuel hw htail
    obtain ⟨a, t⟩ := p
    rw [renderPieces_cons] at hfuel ⊢
    cases fuel with
    | zero =>
      exfalso
      simp only [List.length_append, Nat.le_zero] at hfuel
      have h7 : openTag.length = 7 := by decide
      omega
    | succ f =>
      have hno1 : containsSub (a ++ openTag.dropLast) openTag = false :=
        noNew_open (hw (a, t) (by simp)).1
      have hno2 : containsSub (t ++ closeTag.dropLast) closeTag = false :=
        noNew_close (hw (a, t) (by simp)).2
      have h1 := @splitFirst_exact openTag a
        ((t ++ closeTag) ++ renderPieces ps tail) openTag_ne hno1
      have h2 := @splitFirst_exact closeTag t (renderPieces ps tail)
        closeTag_ne hno2
      rw [removeThinksF_step h1 h2]
      have hrest : (renderPieces ps tail).length ≤ f := by
        simp only [List.length_append] at hfuel
        have h7 : openTag.length = 7 := by decide
        have h8 : closeTag.length = 8 := by decide
        omega
      rw [ih tail f hrest (fun q hq => hw q (by simp [hq])) htail]
      simp [List.append_assoc]

theorem extractThinksF_render : ∀ (ps : List (LC × LC)) (tail : LC) (fuel : Nat),
    (renderPieces ps tail).length ≤ fuel →
    (∀ p ∈ ps, containsSub p.1 openTag = false ∧
      containsSub p.2 closeTag = false) →
    (∀ g : Nat, extractThinksF g tail = []) →
    extractThinksF fuel (renderPieces ps tail) = ps.map Prod.snd := by
  intro ps
  induction ps with
  | nil =>
    intro tail fuel _ _ htail
    simp [renderPieces, htail fuel]
  | cons p ps ih =>
    intro tail fuel hfuel hw htail
    obtain ⟨a, t⟩ := p
    rw [renderPieces_cons] at hfuel ⊢
    cases fuel with
    | zero =>
      exfalso
      simp only [List.length_append, Nat.le_zero] at hfuel
      have h7 : openTag.length = 7 := by decide
      omega
    | succ f =>
      have hno1 : containsSub (a ++ openTag.dropLast) openTag = false :=
        noNew_open (hw (a, t) (by simp)).1
      have hno2 : containsSub (t ++ closeTag.dropLast) closeTag = false :=
        noNew_close (hw (a, t) (by simp)).2
      have h1 := @splitFirst_exact openTag a
        ((t ++ closeTag) ++ renderPieces ps tail) openTag_ne hno1
      have h2 := @splitFirst_exact closeTag t (renderPieces ps tail)
        closeTag_ne hno2
      rw [extractThinksF_step h1 h2]
      have hrest : (renderPieces ps tail).length ≤ f := by
        simp only [List.length_append] at hfuel
        have h7 : openTag.length = 7 := by decide
        have h8 : closeTag.length = 8 := by decide
        omega
      rw [ih tail f hrest (fun q hq => hw q (by simp [hq])) htail]
      simp

theorem openTag_chars : openTag = ['<', 't', 'h', 'i', 'n', 'k', '>'] := by
  decide

theorem closeTag_chars :
    closeTag = ['<', '/', 't', 'h', 'i', 'n', 'k', '>'] := by decide

theorem stripTagsF_nil {fuel : Nat} : stripTagsF fuel [] = [] := by
  cases fuel with
  | zero => rfl
  | succ f => rfl

theorem stripTagsF_close {fuel : Nat} {c : Char} {t : LC}
    (h : closeTag.isPrefixOf (c :: t) = true) :
    stripTagsF (fuel + 1) (c :: t) =
      stripTagsF fuel ((c :: t).drop closeTag.length) := by
  simp only [stripTagsF, h, if_true]

theorem stripTagsF_open {fuel : Nat} {c : Char} {t : LC}
    (hc : closeTag.isPrefixOf (c :: t) = false)
    (ho : openTag.isPrefixOf (c :: t) = true) :
    stripTagsF (fuel + 1) (c :: t) =
      stripTagsF fuel ((c :: t).drop openTag.length) := by
  simp only [stripTagsF, hc, ho, if_true, if_false, Bool.false_eq_true]

theorem stripTagsF_skip {fuel : Nat} {c : Char} {t : LC}
    (hc : closeTag.isPrefixOf (c :: t) = false)
    (ho : openTag.isPrefixOf (c :: t) = false) :
    stripTagsF (fuel + 1) (c :: t) = c :: stripTagsF fuel t := by
  simp only [stripTagsF, hc, ho, if_false, Bool.false_eq_true]

theorem containsSub_of_pref {x pat : LC} (hx : x ≠ [])
    (h : pat.isPrefixOf x = true) : containsSub x pat = true := by
  cases x with
  | nil => exact absurd rfl hx
  | cons c t => simp [containsSub, h]

theorem openTag_no_inner_lt : ∀ m, m < openTag.length → 1 ≤ m →
    (openTag.drop m).head? ≠ some '<' := by decide

theorem closeTag_no_inner_lt : ∀ m, m < closeTag.length → 1 ≤ m →
    (closeTag.drop m).head? ≠ some '<' := by decide

/-- A marker cannot begin strictly inside marker free text x and continue
into a following block s that starts with an angle bracket opener, since
no later marker character is an angle bracket opener. -/
theorem pat_not_pref_straddle {pat x s : LC}
    (hinner : ∀ m, m < pat.length → 1 ≤ m → (pat.drop m).head? ≠ some '<')
    (hx : containsSub x pat = false) (hxne : x ≠ [])
    (hs : s = [] ∨ s.head? = some '<') :
    pat.isPrefixOf (x ++ s) = false := by
  by_contra hcon
  rw [Bool.not_eq_false] at hcon
  have hpre : pat <+: x ++ s := List.isPrefixOf_iff_prefix.mp hcon
  by_cases hle : pat.length ≤ x.length
  · have hpx : pat <+: x := pref_trans_left hpre hle
    rw [← List.isPrefixOf_iff_prefix] at hpx
    rw [containsSub_of_pref hxne hpx] at hx
    exact Bool.noConfusion hx
  · push_neg at hle
    obtain ⟨_, hdrop⟩ := pref_split hpre (Nat.le_of_lt hle)
    have hne : pat.drop x.length ≠ [] := by
      simp only [ne_eq, List.drop_eq_nil_iff, not_le]
      exact hle
    have hsne : s ≠ [] := by
      intro hnil
      subst hnil
      exact hne (List.prefix_nil.mp hdrop)
    have hshead : s.head? = some '<' := by
      rcases hs with h | h
      · exact absurd h hsne
      · exact h
    have hheads := pref_head hdrop hne
    have hx1 : 1 ≤ x.length := by
      cases x with
      | nil => exact absurd rfl hxne
      | cons c t => simp
    exact absurd (by rw [← hheads]; exact hshead)
      (hinner x.length hle hx1)

/-- stripTagsF leaves marker free text unchanged, with any fuel. -/
theorem stripTagsF_id : ∀ (fuel : Nat) (s : LC), tagFree s →
    stripTagsF fuel s = s := by
  intro fuel
  induction fuel with
  | zero => intro s _; rfl
  | succ f ih =>
    intro s hs
    cases s with
    | nil => rfl
    | cons c t =>
      obtain ⟨ho, hc⟩ := hs
      simp only [containsSub, Bool.or_eq_false_iff] at ho hc
      rw [stripTagsF_skip hc.1 ho.1]
      rw [ih t ⟨ho.2, hc.2⟩]

theorem stripTagsF_close' {fuel : Nat} {s : LC} (hne : s ≠ [])
    (hc : closeTag.isPrefixOf s = true) :
    stripTagsF (fuel + 1) s = stripTagsF fuel (s.drop closeTag.length) := by
  cases s with
  | nil => exact absurd rfl hne
  | cons c t => exact stripTagsF_close hc

theorem stripTagsF_open' {fuel : Nat} {s : LC} (hne : s ≠ [])
    (hc : closeTag.isPrefixOf s = false)
    (ho : openTag.isPrefixOf s = true) :
    stripTagsF (fuel + 1) s = stripTagsF fuel (s.drop openTag.length) := by
  cases s with
  | nil => exact absurd rfl hne
  | cons c t => exact stripTagsF_open hc ho

theorem close_not_pref_open (u : LC) :
    closeTag.isPrefixOf (openTag ++ u) = false := by
  rw [openTag_chars, closeTag_chars]
  simp [List.isPrefixOf]

theorem stripTagsF_openBlock (fuel : Nat) (u : LC) :
    stripTagsF (fuel + 1) (openTag ++ u) = stripTagsF fuel u := by
  have hne : openTag ++ u ≠ [] := by
    rw [openTag_chars]
    simp
  have ho : openTag.isPrefixOf (openTag ++ u) = true :=
    List.isPrefixOf_iff_prefix.mpr (List.prefix_append _ _)
  rw [stripTagsF_open' hne (close_not_pref_open u) ho]
  rw [show openTag.length = openTag.length from rfl, List.drop_left]

theorem stripTagsF_closeBlock (fuel : Nat) (u : LC) :
    stripTagsF (fuel + 1) (closeTag ++ u) = stripTagsF fuel u := by
  have hne : closeTag ++ u ≠ [] := by
    rw [closeTag_chars]
    simp
  have hc : closeTag.isPrefixOf (closeTag ++ u) = true :=
    List.isPrefixOf_iff_prefix.mpr (List.prefix_append _ _)
  rw [stripTagsF_close' hne hc, List.drop_left]

theorem stripTagsF_append : ∀ (a : LC) (fuel : Nat) (s : LC), tagFree a →
    (s = [] ∨ s.head? = some '<') → a.length + s.length ≤ fuel →
    stripTagsF fuel (a ++ s) = a ++ stripTagsF (fuel - a.length) s := by
  intro a
  induction a with
  | nil =>
    intro fuel s _ _ _
    simp
  | cons c a2 ih =>
    intro fuel s ha hs hfuel
    cases fuel with
    | zero =>
      exfalso
      simp only [List.length_cons, Nat.le_zero] at hfuel
      omega
    | succ f =>
      obtain ⟨ho, hc⟩ := ha
      simp only [containsSub, Bool.or_eq_false_iff] at ho hc
      have hcfree : containsSub (c :: a2) closeTag = false := by
        simp [containsSub, hc.1, hc.2]
      have hofree : containsSub (c :: a2) openTag = false := by
        simp [containsSub, ho.1, ho.2]
      have hcs : closeTag.isPrefixOf (c :: (a2 ++ s)) = false :=
        pat_not_pref_straddle closeTag_no_inner_lt hcfree (by simp) hs
      have hos : openTag.isPrefixOf (c :: (a2 ++ s)) = false :=
        pat_not_pref_straddle openTag_no_inner_lt hofree (by simp) hs
      rw [show (c :: a2) ++ s = c :: (a2 ++ s) from rfl]
      rw [stripTagsF_skip hcs hos]
      have hf2 : a2.length + s.length ≤ f := by
        simp only [List.length_cons] at hfuel
        omega
      rw [ih f s ⟨ho.2, hc.2⟩ hs hf2]
      have harith : f + 1 - (c :: a2).length = f - a2.length := by
        simp only [List.length_cons]
        omega
      rw [harith]
      rfl

theorem head_openTag_append (u : LC) :
    (openTag ++ u).head? = some '<' := by
  rw [openTag_chars]
  rfl

theorem head_closeTag_append (u : LC) :
    (closeTag ++ u).head? = some '<' := by
  rw [closeTag_chars]
  rfl

/-- Stripping the markers from one full regex match recovers the inner
reasoning text. -/
theorem stripTags_wrap (t : LC) (ht : tagFree t) :
    stripTags (openTag ++ t ++ closeTag) = t := by
  unfold stripTags
  rw [List.append_assoc]
  have hlen : (openTag ++ (t ++ closeTag)).length =
      (t.length + 14) + 1 := by
    simp only [List.length_append]
    have h7 : openTag.length = 7 := by decide
    have h8 : closeTag.length = 8 := by decide
    omega
  rw [hlen, stripTagsF_openBlock]
  have hhead : closeTag.head? = some '<' := by rw [closeTag_chars]; rfl
  have h8 : closeTag.length = 8 := by decide
  have happ := stripTagsF_append t (t.length + 14) closeTag ht
    (Or.inr hhead) (by omega)
  rw [happ]
  have hsub : t.length + 14 - t.length = 13 + 1 := by omega
  rw [hsub]
  conv_lhs => rw [show (closeTag : LC) = closeTag ++ [] by simp]
  rw [stripTagsF_closeBlock, stripTagsF_nil, List.append_nil]

theorem renderPieces_cons' (a t : LC) (ps : List (LC × LC)) (tail : LC) :
    renderPieces ((a, t) :: ps) tail =
      a ++ (openTag ++ (t ++ (closeTag ++ renderPieces ps tail))) := by
  simp [renderPieces, List.append_assoc]

/-- Stripping all markers from a well formed rendering recovers the
answer and reasoning spans interleaved in document order. -/
theorem stripTagsF_render : ∀ (ps : List (LC × LC)) (tail : LC) (fuel : Nat),
    (renderPieces ps tail).length ≤ fuel → wfPieces ps tail →
    stripTagsF fuel (renderPieces ps tail) =
      (ps.map fun p => p.1 ++ p.2).flatten ++ tail := by
  intro ps
  induction ps with
  | nil =>
    intro tail fuel _ hwf
    simp [renderPieces, stripTagsF_id fuel tail hwf.2]
  | cons p ps ih =>
    intro tail fuel hfuel hwf
    obtain ⟨a, t⟩ := p
    obtain ⟨hwp, hwtail⟩ := hwf
    have hA : tagFree a := (hwp (a, t) (by simp)).1
    have hT : tagFree t := (hwp (a, t) (by simp)).2
    rw [renderPieces_cons'] at hfuel ⊢
    have h7 : openTag.length = 7 := by decide
    have h8 : closeTag.length = 8 := by decide
    simp only [List.length_append] at hfuel
    have happ1 := stripTagsF_append a fuel
      (openTag ++ (t ++ (closeTag ++ renderPieces ps tail))) hA
      (Or.inr (head_openTag_append _))
      (by simp only [List.length_append]; omega)
    rw [happ1]
    obtain ⟨g, hg⟩ : ∃ g, fuel - a.length = g + 1 :=
      ⟨fuel - a.length - 1, by omega⟩
    rw [hg, stripTagsF_openBlock]
    have hgge : t.length + (closeTag.length +
        (renderPieces ps tail).length) ≤ g := by omega
    have happ2 := stripTagsF_append t g (closeTag ++ renderPieces ps tail) hT
      (Or.inr (head_closeTag_append _))
      (by simp only [List.length_append]; omega)
    rw [happ2]
    obtain ⟨k, hk⟩ : ∃ k, g - t.length = k + 1 :=
      ⟨g - t.length - 1, by omega⟩
    rw [hk, stripTagsF_closeBlock]
    rw [ih tail k (by omega) ⟨fun q hq => hwp q (by simp [hq]), hwtail⟩]
    simp [List.append_assoc]

/-- Full characterisation of parseAnalysisContent on a balanced input:
the visible answer is the concatenation of the answer spans (trimmed),
the thinking output is the reasoning spans joined by the separator. -/
theorem parse_render (ps : List (LC × LC)) (tail : LC) (hwf : wfPieces ps tail) :
    parseAnalysisContent (renderPieces ps tail) =
      { mainContent := jsTrim ((ps.map Prod.fst).flatten ++ tail)
        thinking := joinSep thinkSep (ps.map Prod.snd) } := by
  obtain ⟨hwp, hwtail⟩ := hwf
  have hbaseR : ∀ g : Nat, removeThinksF g tail = tail := fun g =>
    removeThinksF_none (splitFirst_none hwtail.1)
  have hbaseE : ∀ g : Nat, extractThinksF g tail = [] := fun g =>
    extractThinksF_none (splitFirst_none hwtail.1)
  have hw' : ∀ p ∈ ps, containsSub p.1 openTag = false ∧
      containsSub p.2 closeTag = false :=
    fun p hp => ⟨(hwp p hp).1.1, (hwp p hp).2.2⟩
  unfold parseAnalysisContent removeThinks extractThinks
  rw [removeThinksF_render ps tail _ (le_refl _) hw' hbaseR]
  rw [extractThinksF_render ps tail _ (le_refl _) hw' hbaseE]
  congr 1
  rw [List.map_map]
  have hmm : ps.map ((fun t => stripTags (openTag ++ t ++ closeTag)) ∘ Prod.snd)
      = ps.map Prod.snd :=
    List.map_congr_left (fun p hp => stripTags_wrap p.2 (hwp p hp).2)
  rw [hmm]

/-- Characterisation of parseAnalysisContent when the input ends with an
unmatched open marker: everything from that marker on, marker included,
stays inside mainContent, and thinking only collects the earlier
completed pairs. -/
theorem parse_render_open (ps : List (LC × LC)) (a t : LC)
    (hwp : ∀ p ∈ ps, tagFree p.1 ∧ tagFree p.2)
    (ha : tagFree a) (ht : containsSub t closeTag = false) :
    parseAnalysisContent (renderPieces ps (a ++ openTag ++ t)) =
      { mainContent :=
          jsTrim ((ps.map Prod.fst).flatten ++ (a ++ openTag ++ t))
        thinking := joinSep thinkSep (ps.map Prod.snd) } := by
  have h1 := @splitFirst_exact openTag a t openTag_ne (noNew_open ha.1)
  have h2 := splitFirst_none ht
  have hbaseR : ∀ g : Nat, removeThinksF g (a ++ openTag ++ t) =
      a ++ openTag ++ t := fun g => removeThinksF_noclose h1 h2
  have hbaseE : ∀ g : Nat, extractThinksF g (a ++ openTag ++ t) = [] :=
    fun g => extractThinksF_noclose h1 h2
  have hw' : ∀ p ∈ ps, containsSub p.1 openTag = false ∧
      containsSub p.2 closeTag = false :=
    fun p hp => ⟨(hwp p hp).1.1, (hwp p hp).2.2⟩
  unfold parseAnalysisContent removeThinks extractThinks
  rw [removeThinksF_render ps _ _ (le_refl _) hw' hbaseR]
  rw [extractThinksF_render ps _ _ (le_refl _) hw' hbaseE]
  congr 1
  rw [List.map_map]
  have hmm : ps.map ((fun t => stripTags (openTag ++ t ++ closeTag)) ∘ Prod.snd)
      = ps.map Prod.snd :=
    List.map_congr_left (fun p hp => stripTags_wrap p.2 (hwp p hp).2)
  rw [hmm]

/-!
A model of the JSON values produced by JSON.parse, rich enough for the
frames of the wire protocol.  Numbers keep their source text, since
their numeric value never matters to the consumers, only their
truthiness.
-/

def quoteChar : Char := Char.ofNat 34

def lbrace : Char := Char.ofNat 123

def rbrace : Char := Char.ofNat 125

inductive JVal where
  | jnull
  | jbool (b : Bool)
  | jnum (raw : LC)
  | jstr (s : LC)
  | jarr (elems : List JVal)
  | jobj (fields : List (LC × JVal))
deriving Repr

def jsonWs (c : Char) : Bool :=
  c = ' ' || c = '\t' || c = '\n' || c = '\r'

def skipWs (s : LC) : LC := s.dropWhile jsonWs

def parseHexDigit (c : Char) : Option Nat :=
  if '0' ≤ c ∧ c ≤ '9' then some (c.toNat - 48)
  else if 'a' ≤ c ∧ c ≤ 'f' then some (c.toNat - 87)
  else if 'A' ≤ c ∧ c ≤ 'F' then some (c.toNat - 55)
  else none

/-- JSON string body parser, entered after the opening quote; returns
the decoded content and the rest after the closing quote. -/
def parseJStr : Nat → LC → Option (LC × LC)
  | 0, _ => none
  | _+1, [] => none
  | fuel+1, c :: t =>
    if c = quoteChar then some ([], t)
    else if c = '\\' then
      match t with
      | [] => none
      | e :: t2 =>
        if e = quoteChar then
          (parseJStr fuel t2).map fun p => (quoteChar :: p.1, p.2)
        else if e = '\\' then
          (parseJStr fuel t2).map fun p => ('\\' :: p.1, p.2)
        else if e = '/' then
          (parseJStr fuel t2).map fun p => ('/' :: p.1, p.2)
        else if e = 'b' then
          (parseJStr fuel t2).map fun p => (Char.ofNat 8 :: p.1, p.2)
        else if e = 'f' then
          (parseJStr fuel t2).map fun p => (Char.ofNat 12 :: p.1, p.2)
        else if e = 'n' then
          (parseJStr fuel t2).map fun p => ('\n' :: p.1, p.2)
        else if e = 'r' then
          (parseJStr fuel t2).map fun p => ('\r' :: p.1, p.2)
        else if e = 't' then
          (parseJStr fuel t2).map fun p => ('\t' :: p.1, p.2)
        else if e = 'u' then
          match t2 with
          | h1 :: h2 :: h3 :: h4 :: t3 =>
            match parseHexDigit h1, parseHexDigit h2,
                parseHexDigit h3, parseHexDigit h4 with
            | some d1, some d2, some d3, some d4 =>
              (parseJStr fuel t3).map fun p =>
                (Char.ofNat (((d1 * 16 + d2) * 16 + d3) * 16 + d4) :: p.1, p.2)
            | _, _, _, _ => none
          | _ => none
        else none
    else if c.toNat < 32 then none
    else (parseJStr fuel t).map fun p => (c :: p.1, p.2)

def parseIntPart : LC → Option (LC × LC)
  | [] => none
  | c :: t =>
    if c = '0' then some (['0'], t)
    else if c.isDigit then
      some (c :: t.takeWhile Char.isDigit, t.dropWhile Char.isDigit)
    else none

def parseFracPart : LC → Option (LC × LC)
  | '.' :: t =>
    if (t.takeWhile Char.isDigit).isEmpty then none
    else some ('.' :: t.takeWhile Char.isDigit, t.dropWhile Char.isDigit)
  | s => some ([], s)

def parseExpPart : LC → Option (LC × LC)
  | [] => some ([], [])
  | c :: t =>
    if c = 'e' ∨ c = 'E' then
      match t with
      | s :: t2 =>
        if s = '+' ∨ s = '-' then
          if (t2.takeWhile Char.isDigit).isEmpty then none
          else some (c :: s :: t2.takeWhile Char.isDigit,
            t2.dropWhile Char.isDigit)
        else
          if (t.takeWhile Char.isDigit).isEmpty then none
          else some (c :: t.takeWhile Char.isDigit, t.dropWhile Char.isDigit)
      | [] => none
    else some ([], c :: t)

def parseNum (s : LC) : Option (JVal × LC) :=
  let (neg, s1) :=
    match s with
    | '-' :: t => ((['-'] : LC), t)
    | _ => (([] : LC), s)
  match parseIntPart s1 with
  | none => none
  | some (ip, r1) =>
    match parseFracPart r1 with
    | none => none
    | some (fp, r2) =>
      match parseExpPart r2 with
      | none => none
      | some (ep, r3) => some (.jnum (neg ++ ip ++ fp ++ ep), r3)

mutual

def parseVal : Nat → LC → Option (JVal × LC)
  | 0, _ => none
  | fuel+1, s =>
    match skipWs s with
    | [] => none
    | c :: t =>
      if c = quoteChar then
        (parseJStr (t.length + 1) t).map fun p => (JVal.jstr p.1, p.2)
      else if c = 't' then
        if "rue".toList.isPrefixOf t then some (.jbool true, t.drop 3)
        else none
      else if c = 'f' then
        if "alse".toList.isPrefixOf t then some (.jbool false, t.drop 4)
        else none
      else if c = 'n' then
        if "ull".toList.isPrefixOf t then some (.jnull, t.drop 3) else none
      else if c = '[' then
        match skipWs t with
        | ']' :: r => some (.jarr [], r)
        | r => (parseElems fuel r).map fun p => (JVal.jarr p.1, p.2)
      else if c = lbrace then
        let r := skipWs t
        if r.head? = some rbrace then some (.jobj [], r.tail)
        else (parseFields fuel r).map fun p => (JVal.jobj p.1, p.2)
      else parseNum (c :: t)

def parseElems : Nat → LC → Option (List JVal × LC)
  | 0, _ => none
  | fuel+1, s =>
    match parseVal fuel s with
    | none => none
    | some (v, r) =>
      match skipWs r with
      | ',' :: r2 => (parseElems fuel r2).map fun p => (v :: p.1, p.2)
      | ']' :: r2 => some ([v], r2)
      | _ => none

def parseFields : Nat → LC → Option (List (LC × JVal) × LC)
  | 0, _ => none
  | fuel+1, s =>
    match skipWs s with
    | [] => none
    | c :: t =>
      if c = quoteChar then
        match parseJStr (t.length + 1) t with
        | none => none
        | some (k, r) =>
          match skipWs r with
          | ':' :: r2 =>
            match parseVal fuel r2 with
            | none => none
            | some (v, r3) =>
              match skipWs r3 with
              | ',' :: r4 =>
                (parseFields fuel r4).map fun p => ((k, v) :: p.1, p.2)
              | c2 :: r4 => if c2 = rbrace then some ([(k, v)], r4) else none
              | [] => none
          | _ => none
      else none

end

/-- JSON.parse: the whole record must be one value, whitespace aside. -/
def parseJson (s : LC) : Option JVal :=
  match parseVal (2 * s.length + 2) s with
  | none => none
  | some (v, rest) => if skipWs rest = [] then some v else none

theorem sanity_parse_json_content :
    parseJson "\x7b\"content\":\"Hel\"\x7d".toList =
      some (.jobj [("content".toList, .jstr "Hel".toList)]) := by rfl

theorem sanity_parse_json_done :
    parseJson "\x7b\"done\":true\x7d".toList =
      some (.jobj [("done".toList, .jbool true)]) := by rfl

theorem sanity_parse_json_bad :
    parseJson "\x7boops".toList = none := by rfl

/-!
JavaScript value semantics used by the stream consumers: property
access on a parsed value, truthiness, and string coercion.
-/

/-- Duplicate keys in a JSON text resolve to the last occurrence. -/
def lookupLast : List (LC × JVal) → LC → Option JVal
  | [], _ => none
  | (k, v) :: rest, name =>
    match lookupLast rest name with
    | some w => some w
    | none => if k = name then some v else none

/-- Successful property access data.name: the property on an object,
undefined on booleans, numbers, strings and arrays.  Property access on
the JSON value null throws a TypeError in JavaScript instead of
returning a value; every access in the consumers sits inside a try
block, so that path is modelled explicitly at each access site whose
catch block does something observable (see consumeAnalyze), while in
the two generators the throw lands in the per record parse catch and
only skips the rest of that record's processing, which coincides with
the undefined branches below (see analyzeFrames and chatDeltas). -/
def getField (v : JVal) (name : LC) : Option JVal :=
  match v with
  | .jobj fs => lookupLast fs name
  | _ => none

/-- Is this frame the JSON value null, on which property access throws. -/
def isNullV : JVal → Bool
  | .jnull => true
  | _ => false

/-- Is a JSON number literal non zero: some mantissa digit is not 0. -/
def numTruthy (raw : LC) : Bool :=
  (raw.takeWhile fun c => c ≠ 'e' ∧ c ≠ 'E').any fun c => '1' ≤ c ∧ c ≤ '9'

def truthyV : JVal → Bool
  | .jnull => false
  | .jbool b => b
  | .jnum raw => numTruthy raw
  | .jstr s => !s.isEmpty
  | .jarr _ => true
  | .jobj _ => true

/-- JavaScript truthiness of a possibly absent property. -/
def truthy : Option JVal → Bool
  | none => false
  | some v => truthyV v

theorem notNull_of_getField_some {v : JVal} {k : LC} {w : JVal}
    (h : getField v k = some w) : isNullV v = false := by
  cases v with
  | jnull => simp [getField] at h
  | jbool b => rfl
  | jnum raw => rfl
  | jstr s => rfl
  | jarr xs => rfl
  | jobj fs => rfl

theorem notNull_of_truthy_getField {v : JVal} {k : LC}
    (h : truthy (getField v k) = true) : isNullV v = false := by
  cases v with
  | jnull => simp [getField, truthy] at h
  | jbool b => rfl
  | jnum raw => rfl
  | jstr s => rfl
  | jarr xs => rfl
  | jobj fs => rfl

/-- Rendering of one array element under ToString; null renders empty.
The protocol consumers only ever coerce the string typed content field,
so elements that are themselves containers are rendered one level deep
only. -/
def jsAtom : JVal → LC
  | .jnull => []
  | .jbool true => "true".toList
  | .jbool false => "false".toList
  | .jnum raw => raw
  | .jstr s => s
  | .jobj _ => "[object Object]".toList
  | .jarr _ => []

/-- JavaScript ToString as applied by string concatenation. -/
def jsToString : JVal → LC
  | .jnull => "null".toList
  | .jbool true => "true".toList
  | .jbool false => "false".toList
  | .jnum raw => raw
  | .jstr s => s
  | .jobj _ => "[object Object]".toList
  | .jarr xs => joinSep [','] (xs.map jsAtom)

theorem jsToString_jstr (s : LC) : jsToString (.jstr s) = s := rfl

/-!
The frame decoder shared by streamAnalyzePage (api.ts 144 to 171) and
streamChat (api.ts 221 to 254).  The transport hands over a sequence of
chunks; the loop appends each chunk to a buffer, splits the buffer on
newlines, keeps the trailing partial line in the buffer, and processes
every complete line.  When the transport closes the leftover buffer is
discarded.
-/

/-- String.prototype.split on the newline character: the list of
separated parts, always non empty. -/
def splitNl : LC → List LC
  | [] => [[]]
  | c :: t =>
    if c = '\n' then [] :: splitNl t
    else
      match splitNl t with
      | [] => [[c]]
      | l :: ls => (c :: l) :: ls

theorem splitNl_ne_nil (s : LC) : splitNl s ≠ [] := by
  cases s with
  | nil => simp [splitNl]
  | cons c t =>
    simp only [splitNl]
    by_cases h : c = '\n'
    · simp [h]
    · simp only [h, if_false]
      cases splitNl t with
      | nil => simp
      | cons l ls => simp

/-- The complete lines of the stream so far: the chunk loop of the two
stream readers.  buf is the carried partial line, chunks the chunk
sequence delivered by the transport before it closed. -/
def feedChunks (buf : LC) : List LC → List LC
  | [] => []
  | c :: cs =>
    let parts := splitNl (buf ++ c)
    parts.dropLast ++ feedChunks (parts.getLast (splitNl_ne_nil _)) cs

/-- All complete lines seen by a reader across the whole stream. -/
def sseLines (chunks : List LC) : List LC := feedChunks [] chunks

def dataMarker : LC := "data: ".toList

def contentKey : LC := "content".toList

def doneKey : LC := "done".toList

def errorKey : LC := "error".toList

def teKey : LC := "text_extracted".toList

/-- One line of the analyze stream: lines without the data marker are
dropped, the JSON after the marker is parsed, a parse failure is logged
and skipped. -/
def lineFrame (l : LC) : Option JVal :=
  if dataMarker.isPrefixOf l then parseJson (l.drop dataMarker.length)
  else none

/-- The frames yielded by the streamAnalyzePage generator
(api.ts 144 to 171): every successfully parsed record is yielded, and
the generator returns right after yielding a record whose done field is
truthy.  On a null record the yield has already happened when the done
access throws; the throw lands in the per record parse catch and the
loop continues, which coincides with the falsy done branch here. -/
def analyzeFrames : List LC → List JVal
  | [] => []
  | l :: ls =>
    match lineFrame l with
    | none => analyzeFrames ls
    | some v =>
      v :: (if truthy (getField v doneKey) then [] else analyzeFrames ls)

/-- The content strings yielded by the streamChat generator
(api.ts 221 to 254).  The throw of new Error(data.error) sits inside
the same try block whose catch handles JSON parse failures, so an error
record is merely logged and the loop continues with the next record;
a truthy done ends the generator; otherwise a truthy content is
yielded.  On a null record the error access throws into that same
catch and the loop continues with nothing yielded, which coincides
with the all fields falsy branch here. -/
def chatDeltas : List LC → List LC
  | [] => []
  | l :: ls =>
    match lineFrame l with
    | none => chatDeltas ls
    | some v =>
      if truthy (getField v errorKey) then chatDeltas ls
      else if truthy (getField v doneKey) then []
      else if truthy (getField v contentKey) then
        jsToString ((getField v contentKey).getD .jnull) :: chatDeltas ls
      else chatDeltas ls

/-- streamAnalyzePage as a function of the transport chunk sequence. -/
def streamAnalyzePage (chunks : List LC) : List JVal :=
  analyzeFrames (sseLines chunks)

/-- streamChat as a function of the transport chunk sequence.  At the
frame level this generator never throws: transport and HTTP failures
are outside this model. -/
def streamChat (chunks : List LC) : List LC :=
  chatDeltas (sseLines chunks)

inductive SessionState where
  | Idle
  | Streaming
  | Completed
  | Failed
  | Cancelled
deriving Repr, DecidableEq

structure AnalyzeOutcome where
  state : SessionState
  analysis : LC
  thinking : LC
  fullText : LC
deriving Repr, DecidableEq

def failMsg : LC :=
  ("Failed to analyze page. " ++
    "Please check if the AI service is running and try again.").toList

def tipMsg : LC :=
  ("\n\n💡 Tip: This page might contain images, diagrams, " ++
    "or special formatting that requires visual analysis.").toList

/-- The terminal UI state of analyzeCurrentPage after its loop ends
without an error: the accumulated text parsed into answer and thinking,
with the advisory tip appended when the last text extracted signal was
falsy. -/
def finishAnalyze (acc : LC) (te : JVal) : AnalyzeOutcome :=
  let parsed := parseAnalysisContent acc
  { state := .Completed
    analysis :=
      if truthyV te then parsed.mainContent else parsed.mainContent ++ tipMsg
    thinking := parsed.thinking
    fullText := acc }

/-- The frame loop of analyzeCurrentPage (AIPanel.tsx 69 to 123): on a
null frame the chunk.error access itself throws a TypeError, and on a
truthy error field the code throws deliberately; either throw reaches
the catch block of the component, which replaces the analysis with a
fixed failure message and clears the thinking panel, ending the loop.
Otherwise content appends to the accumulator, a present text_extracted
field of any value overwrites the flag, and done breaks the loop. -/
def consumeAnalyze : List JVal → LC → JVal → AnalyzeOutcome
  | [], acc, te => finishAnalyze acc te
  | f :: fs, acc, te =>
    if isNullV f then
      { state := .Failed, analysis := failMsg, thinking := [], fullText := acc }
    else if truthy (getField f errorKey) then
      { state := .Failed, analysis := failMsg, thinking := [], fullText := acc }
    else
      let acc2 :=
        if truthy (getField f contentKey) then
          acc ++ jsToString ((getField f contentKey).getD .jnull)
        else acc
      let te2 :=
        match getField f teKey with
        | some v => v
        | none => te
      if truthy (getField f doneKey) then finishAnalyze acc2 te2
      else consumeAnalyze fs acc2 te2

/-- analyzeCurrentPage end to end on a transport chunk sequence. -/
def runAnalyzePage (chunks : List LC) : AnalyzeOutcome :=
  consumeAnalyze (streamAnalyzePage chunks) [] (.jbool true)

/-- The answer text accumulated by a frame sequence: contents of the
frames up to and including the first frame with truthy done. -/
def contentsUntilDone : List JVal → LC
  | [] => []
  | f :: fs =>
    let piece :=
      if truthy (getField f contentKey) then
        jsToString ((getField f contentKey).getD .jnull)
      else []
    if truthy (getField f doneKey) then piece
    else piece ++ contentsUntilDone fs

/-!
The analysis slot of AIPanel.  analyzeCurrentPage contains no abort
controller, cancellation token or generation counter: entering it
starts a fresh streaming loop and leaves every previously started loop
untouched (the only guard in the component is the disabled attribute of
the Analyze Page button, which does not constrain the auto analyze
effect of lines 34 to 39).  A session here is one invocation of the
analyzeCurrentPage loop.
-/

structure SlotState where
  sessions : List SessionState
deriving Repr, DecidableEq

def initSlot : SlotState := { sessions := [] }

/-- Entering analyzeCurrentPage: a new Streaming session is added and
no existing session is touched. -/
def startAnalyze (s : SlotState) : SlotState :=
  { sessions := s.sessions ++ [SessionState.Streaming] }

def countStreaming (s : SlotState) : Nat :=
  s.sessions.count SessionState.Streaming

/-!
saveChatAsNote of the ChatInterface component.  The function returns
early, without signalling anything to its caller, when no file is open
or the transcript is empty; otherwise it renders the transcript with
role labels and posts it to the notes service.  The creation date used
in the fallback title is outside the model and passed as a parameter.
-/

structure ChatMsg where
  text : LC
  isUser : Bool
deriving Repr, DecidableEq

/-- What reaches the notes service: nothing (the silent early return),
or one create call with a title and a content. -/
inductive SaveResult where
  | noop
  | saved (title : LC) (content : LC)
deriving Repr, DecidableEq

def roleLabel (m : ChatMsg) : LC :=
  "**".toList ++ (if m.isUser then "You".toList else "AI".toList) ++
    "**: ".toList ++ m.text

/-- The chat content string built by saveChatAsNote. -/
def renderChatContent (msgs : List ChatMsg) : LC :=
  joinSep "\n\n".toList (msgs.map roleLabel)

def saveChatAsNote (filename : Option LC) (msgs : List ChatMsg)
    (noteTitle : LC) (defaultTitle : LC) : SaveResult :=
  match filename with
  | none => .noop
  | some f =>
    if f.isEmpty || msgs.isEmpty then .noop
    else
      .saved
        (if (jsTrim noteTitle).isEmpty then defaultTitle else jsTrim noteTitle)
        (renderChatContent msgs)

/-- Modelled from the spec: the note body the specification asks for,
role labelled turn texts with the Reasoning segments excluded from the
rendered note body.  This definition follows the words of the
specification and exists to be compared with renderChatContent. -/
def specNoteContent (msgs : List ChatMsg) : LC :=
  joinSep "\n\n".toList (msgs.map fun m =>
    "**".toList ++ (if m.isUser then "You".toList else "AI".toList) ++
      "**: ".toList ++ removeThinks m.text)

def consFirst (p : LC) : List LC → List LC
  | [] => [p]
  | l :: ls => (p ++ l) :: ls

theorem consFirst_ne_nil (p : LC) (ls : List LC) : consFirst p ls ≠ [] := by
  cases ls with
  | nil => simp [consFirst]
  | cons l ls => simp [consFirst]

theorem splitNl_no_nl {s : LC} (h : '\n' ∉ s) : splitNl s = [s] := by
  induction s with
  | nil => rfl
  | cons c t ih =>
    simp only [List.mem_cons, not_or] at h
    have hc : ¬(c = '\n') := fun hh => h.1 hh.symm
    simp only [splitNl, hc, if_false]
    rw [ih h.2]

theorem splitNl_mem_no_nl : ∀ (s : LC) (l : LC), l ∈ splitNl s → '\n' ∉ l := by
  intro s
  induction s with
  | nil =>
    intro l hl
    simp only [splitNl, List.mem_singleton] at hl
    subst hl
    simp
  | cons c t ih =>
    intro l hl
    simp only [splitNl] at hl
    by_cases hc : c = '\n'
    · simp only [hc, if_true] at hl
      rcases List.mem_cons.mp hl with h | h
      · subst h; simp
      · exact ih l h
    · simp only [hc, if_false] at hl
      cases hsp : splitNl t with
      | nil => exact absurd hsp (splitNl_ne_nil t)
      | cons m ms =>
        rw [hsp] at hl
        rcases List.mem_cons.mp hl with h | h
        · subst h
          intro hmem
          rcases List.mem_cons.mp hmem with h' | h'
          · exact hc h'.symm
          · exact ih m (by rw [hsp]; exact List.mem_cons_self m ms) h'
        · exact ih l (by rw [hsp]; exact List.mem_cons_of_mem m h)

theorem getLast_eq_getLastD (l : List LC) (h : l ≠ []) :
    l.getLast h = l.getLastD [] := by
  cases l with
  | nil => exact absurd rfl h
  | cons x xs => rw [List.getLastD_eq_getLast?, List.getLast?_eq_getLast]; rfl

theorem splitNl_append : ∀ (a b : LC),
    splitNl (a ++ b) =
      (splitNl a).dropLast ++ consFirst ((splitNl a).getLastD []) (splitNl b) := by
  intro a
  induction a with
  | nil =>
    intro b
    cases hb : splitNl b with
    | nil => exact absurd hb (splitNl_ne_nil b)
    | cons l ls => simp [splitNl, consFirst, hb]
  | cons c a' ih =>
    intro b
    by_cases hc : c = '\n'
    · subst hc
      show splitNl ('\n' :: (a' ++ b)) = _
      simp only [splitNl, if_true]
      rw [ih b]
      cases hsp : splitNl a' with
      | nil => exact absurd hsp (splitNl_ne_nil a')
      | cons m ms =>
        simp [List.dropLast_cons_of_ne_nil, hsp]
    · show splitNl (c :: (a' ++ b)) = _
      simp only [splitNl, hc, if_false]
      rw [ih b]
      cases hsp : splitNl a' with
      | nil => exact absurd hsp (splitNl_ne_nil a')
      | cons l0 ls0 =>
        cases ls0 with
        | nil =>
          cases hb : splitNl b with
          | nil => exact absurd hb (splitNl_ne_nil b)
          | cons lb lsb => simp [consFirst, List.append_assoc]
        | cons m ms =>
          simp [consFirst, List.dropLast_cons_of_ne_nil]

theorem feedChunks_eq : ∀ (cs : List LC) (buf : LC), '\n' ∉ buf →
    feedChunks buf cs = (splitNl (buf ++ cs.flatten)).dropLast := by
  intro cs
  induction cs with
  | nil =>
    intro buf hbuf
    simp [feedChunks, splitNl_no_nl hbuf]
  | cons c cs ih =>
    intro buf hbuf
    have hlastmem : (splitNl (buf ++ c)).getLastD [] ∈ splitNl (buf ++ c) := by
      rw [← getLast_eq_getLastD _ (splitNl_ne_nil _)]
      exact List.getLast_mem _
    have hlast_no_nl : '\n' ∉ (splitNl (buf ++ c)).getLastD [] :=
      splitNl_mem_no_nl _ _ hlastmem
    show (splitNl (buf ++ c)).dropLast ++
        feedChunks ((splitNl (buf ++ c)).getLast (splitNl_ne_nil _)) cs = _
    rw [getLast_eq_getLastD _ (splitNl_ne_nil _)]
    rw [ih _ hlast_no_nl]
    have hassoc : buf ++ (c :: cs).flatten = (buf ++ c) ++ cs.flatten := by
      simp [List.append_assoc]
    conv_rhs => rw [hassoc, splitNl_append (buf ++ c) cs.flatten]
    rw [List.dropLast_append_of_ne_nil _ (consFirst_ne_nil _ _)]
    congr 1
    have hexp := splitNl_append ((splitNl (buf ++ c)).getLastD []) cs.flatten
    rw [splitNl_no_nl hlast_no_nl] at hexp
    rw [hexp]
    rfl

/-- The lines processed by a reader depend only on the concatenation of
the transport chunks: all newline terminated lines, in order, with a
trailing unterminated line dropped. -/
theorem sseLines_eq (chunks : List LC) :
    sseLines chunks = (splitNl chunks.flatten).dropLast := by
  unfold sseLines
  rw [feedChunks_eq chunks [] (by simp)]
  rfl

theorem splitNl_line {a : LC} (b : LC) (ha : '\n' ∉ a) :
    splitNl (a ++ '\n' :: b) = a :: splitNl b := by
  rw [splitNl_append a ('\n' :: b), splitNl_no_nl ha]
  show [] ++ consFirst a ([] :: splitNl b) = a :: splitNl b
  simp [consFirst]

/-- C6: feeding the decoder the three records of the example stream
yields accumulated turn text Hello think-why world, answer segment
with the marker range removed, reasoning segment why, and a completed
session. -/
theorem C6_example_stream :
    runAnalyzePage
      [ "data: \x7b\"content\":\"Hel\"\x7d\n".toList,
        "data: \x7b\"content\":\"lo <think>why</think> world\"\x7d\n".toList,
        "data: \x7b\"done\":true\x7d\n".toList ] =
      { state := SessionState.Completed
        analysis := "Hello  world".toList
        thinking := "why".toList
        fullText := "Hello <think>why</think> world".toList } := by
  rfl

/-- C2 counterexample: on the balanced input a think b close c, the
Answer output is ac and the Reasoning output is b, while the input with
the marker characters removed is abc; appending the Reasoning
concatenation after the Answer concatenation does not reconstruct it. -/
theorem C2_counterexample :
    (parseAnalysisContent "a<think>b</think>c".toList).mainContent =
      "ac".toList ∧
    (parseAnalysisContent "a<think>b</think>c".toList).thinking =
      "b".toList ∧
    stripTags "a<think>b</think>c".toList = "abc".toList ∧
    (parseAnalysisContent "a<think>b</think>c".toList).mainContent ++
      (parseAnalysisContent "a<think>b</think>c".toList).thinking ≠
      stripTags "a<think>b</think>c".toList := by
  decide

/-- C2 amended: for every string with balanced markers, the Answer
output is the concatenation of the answer spans in document order,
whitespace trimmed at both ends; the Reasoning output is the reasoning
spans in document order joined by the fixed separator; and the string
with markers removed is recovered by interleaving the answer and
reasoning spans in their original document order, not by appending the
Reasoning concatenation after the Answer concatenation. -/
theorem C2_segmentation_characterised (ps : List (LC × LC)) (tail : LC)
    (hwf : wfPieces ps tail) :
    (parseAnalysisContent (renderPieces ps tail)).mainContent =
      jsTrim ((ps.map Prod.fst).flatten ++ tail) ∧
    (parseAnalysisContent (renderPieces ps tail)).thinking =
      joinSep thinkSep (ps.map Prod.snd) ∧
    stripTags (renderPieces ps tail) =
      (ps.map fun p => p.1 ++ p.2).flatten ++ tail := by
  refine ⟨?_, ?_, ?_⟩
  · rw [parse_render ps tail hwf]
  · rw [parse_render ps tail hwf]
  · unfold stripTags
    exact stripTagsF_render ps tail _ (le_refl _) hwf

theorem C2_witness :
    wfPieces [("a".toList, "b".toList)] "c".toList ∧
    ((parseAnalysisContent
        (renderPieces [("a".toList, "b".toList)] "c".toList)).mainContent =
      jsTrim (([("a".toList, "b".toList)].map Prod.fst).flatten ++ "c".toList) ∧
    (parseAnalysisContent
        (renderPieces [("a".toList, "b".toList)] "c".toList)).thinking =
      joinSep thinkSep ([("a".toList, "b".toList)].map Prod.snd) ∧
    stripTags (renderPieces [("a".toList, "b".toList)] "c".toList) =
      ([("a".toList, "b".toList)].map fun p => p.1 ++ p.2).flatten ++
        "c".toList) :=
  ⟨by decide, C2_segmentation_characterised _ _ (by decide)⟩

/-- C3 counterexample: on the input a think b, whose opening marker has
no later close marker, the Reasoning output is empty and the whole
input, marker and following content included, stays in the Answer
output, contradicting the claim that everything from the unmatched
marker onward is classified Reasoning and kept out of the Answer. -/
theorem C3_counterexample :
    (parseAnalysisContent "a<think>b".toList).thinking = [] ∧
    (parseAnalysisContent "a<think>b".toList).mainContent =
      "a<think>b".toList ∧
    containsSub (parseAnalysisContent "a<think>b".toList).mainContent
      "b".toList = true := by
  decide

/-- C3 amended: for every cumulative text that ends with an opening
marker with no matching close marker after it, segmentation keeps all
content from that unmatched marker onward, the marker itself included,
in the Answer output, and the Reasoning output holds exactly the
earlier completed pairs. -/
theorem C3_unterminated_marker_in_answer (ps : List (LC × LC)) (a t : LC)
    (hwp : ∀ p ∈ ps, tagFree p.1 ∧ tagFree p.2) (ha : tagFree a)
    (ht : containsSub t closeTag = false) :
    (parseAnalysisContent
        (renderPieces ps (a ++ openTag ++ t))).mainContent =
      jsTrim ((ps.map Prod.fst).flatten ++ (a ++ openTag ++ t)) ∧
    (parseAnalysisContent (renderPieces ps (a ++ openTag ++ t))).thinking =
      joinSep thinkSep (ps.map Prod.snd) := by
  rw [parse_render_open ps a t hwp ha ht]
  exact ⟨rfl, rfl⟩

theorem C3_witness :
    (∀ p ∈ ([("s".toList, "r".toList)] : List (LC × LC)),
      tagFree p.1 ∧ tagFree p.2) ∧
    tagFree "x".toList ∧ containsSub "b".toList closeTag = false ∧
    ((parseAnalysisContent (renderPieces [("s".toList, "r".toList)]
        ("x".toList ++ openTag ++ "b".toList))).mainContent =
      jsTrim (([("s".toList, "r".toList)].map Prod.fst).flatten ++
        ("x".toList ++ openTag ++ "b".toList)) ∧
    (parseAnalysisContent (renderPieces [("s".toList, "r".toList)]
        ("x".toList ++ openTag ++ "b".toList))).thinking =
      joinSep thinkSep ([("s".toList, "r".toList)].map Prod.snd)) :=
  ⟨by decide, by decide, by decide,
    C3_unterminated_marker_in_answer [("s".toList, "r".toList)] _ _
      (by decide) (by decide) (by decide)⟩

/-- The last value of the text extracted flag before the loop ends. -/
def teUntilDone : List JVal → JVal → JVal
  | [], te => te
  | f :: fs, te =>
    let te2 :=
      match getField f teKey with
      | some v => v
      | none => te
    if truthy (getField f doneKey) then te2 else teUntilDone fs te2

theorem finishAnalyze_state (acc : LC) (te : JVal) :
    (finishAnalyze acc te).state = SessionState.Completed := rfl

theorem finishAnalyze_fullText (acc : LC) (te : JVal) :
    (finishAnalyze acc te).fullText = acc := rfl

theorem finishAnalyze_analysis (acc : LC) (te : JVal) :
    (finishAnalyze acc te).analysis =
      if truthyV te then (parseAnalysisContent acc).mainContent
      else (parseAnalysisContent acc).mainContent ++ tipMsg := rfl

/-- When no frame is null and none carries a truthy error field, the
analyze loop runs to its end and finishes through the completion path,
having appended every content delta. -/
theorem consumeAnalyze_no_error : ∀ (fs : List JVal) (acc : LC) (te : JVal),
    (∀ f ∈ fs, isNullV f = false ∧ truthy (getField f errorKey) = false) →
    consumeAnalyze fs acc te =
      finishAnalyze (acc ++ contentsUntilDone fs) (teUntilDone fs te) := by
  intro fs
  induction fs with
  | nil =>
    intro acc te _
    simp [consumeAnalyze, contentsUntilDone, teUntilDone]
  | cons f fs ih =>
    intro acc te hne
    have hn : isNullV f = false := (hne f (by simp)).1
    have hf : truthy (getField f errorKey) = false := (hne f (by simp)).2
    simp only [consumeAnalyze, contentsUntilDone, teUntilDone, hn, hf,
      if_false, Bool.false_eq_true]
    by_cases hd : truthy (getField f doneKey) = true
    · simp only [hd, if_true]
      by_cases hc : truthy (getField f contentKey) = true
      · simp [hc]
      · simp only [Bool.not_eq_true] at hc
        simp [hc]
    · simp only [Bool.not_eq_true] at hd
      simp only [hd, if_false, Bool.false_eq_true]
      rw [ih _ _ (fun g hg => hne g (by simp [hg]))]
      by_cases hc : truthy (getField f contentKey) = true
      · simp [hc, List.append_assoc]
      · simp only [Bool.not_eq_true] at hc
        simp [hc]

/-- C4 counterexample: a stream whose transport closes after one
content record and no terminal record ends in the Completed state with
the partial text kept, not in the Failed state with an error message
that the claim requires. -/
theorem C4_counterexample :
    (runAnalyzePage ["data: \x7b\"content\":\"Hi\"\x7d\n".toList]).state =
      SessionState.Completed ∧
    (runAnalyzePage ["data: \x7b\"content\":\"Hi\"\x7d\n".toList]).state ≠
      SessionState.Failed ∧
    (runAnalyzePage ["data: \x7b\"content\":\"Hi\"\x7d\n".toList]).fullText =
      "Hi".toList ∧
    (runAnalyzePage ["data: \x7b\"content\":\"Hi\"\x7d\n".toList]).analysis =
      "Hi".toList := by
  decide

/-- C4 amended: for every input stream none of whose decoded frames is
the JSON value null or carries a truthy error field, transport close
without a terminal frame ends the session in the Completed state with
no error surfaced: the text accumulated before the close is preserved
and the rendered analysis is its parsed answer segment, with the
advisory tip possibly appended.  A decoded null frame instead throws a
TypeError at the chunk.error access and the catch surfaces the generic
failure message, so the claimed Failed state with an unexpected
termination message exists in neither case. -/
theorem C4_silent_close (chunks : List LC)
    (hne : ∀ f ∈ streamAnalyzePage chunks,
      isNullV f = false ∧ truthy (getField f errorKey) = false) :
    (runAnalyzePage chunks).state = SessionState.Completed ∧
    (runAnalyzePage chunks).fullText =
      contentsUntilDone (streamAnalyzePage chunks) ∧
    ((runAnalyzePage chunks).analysis =
        (parseAnalysisContent (runAnalyzePage chunks).fullText).mainContent ∨
      (runAnalyzePage chunks).analysis =
        (parseAnalysisContent (runAnalyzePage chunks).fullText).mainContent ++
          tipMsg) := by
  unfold runAnalyzePage
  rw [consumeAnalyze_no_error _ _ _ hne]
  rw [List.nil_append]
  refine ⟨finishAnalyze_state _ _, finishAnalyze_fullText _ _, ?_⟩
  rw [finishAnalyze_analysis, finishAnalyze_fullText]
  by_cases hte : truthyV (teUntilDone (streamAnalyzePage chunks)
      (JVal.jbool true)) = true
  · left
    rw [if_pos hte]
  · right
    rw [if_neg hte]

theorem C4_witness :
    (∀ f ∈ streamAnalyzePage ["data: \x7b\"content\":\"Hi\"\x7d\n".toList],
      isNullV f = false ∧ truthy (getField f errorKey) = false) ∧
    ((runAnalyzePage ["data: \x7b\"content\":\"Hi\"\x7d\n".toList]).state =
      SessionState.Completed ∧
    (runAnalyzePage ["data: \x7b\"content\":\"Hi\"\x7d\n".toList]).fullText =
      contentsUntilDone
        (streamAnalyzePage ["data: \x7b\"content\":\"Hi\"\x7d\n".toList]) ∧
    ((runAnalyzePage ["data: \x7b\"content\":\"Hi\"\x7d\n".toList]).analysis =
        (parseAnalysisContent (runAnalyzePage
          ["data: \x7b\"content\":\"Hi\"\x7d\n".toList]).fullText).mainContent ∨
      (runAnalyzePage ["data: \x7b\"content\":\"Hi\"\x7d\n".toList]).analysis =
        (parseAnalysisContent (runAnalyzePage
            ["data: \x7b\"content\":\"Hi\"\x7d\n".toList]).fullText).mainContent
          ++ tipMsg)) :=
  ⟨by decide, C4_silent_close _ (by decide)⟩

/-- A record holding the bare JSON value null parses, is yielded, and
its chunk.error access throws a TypeError into the component catch: the
session fails with the generic failure message, not silently, which is
why the silent close characterisation excludes null frames. -/
theorem runAnalyze_null_frame_failed :
    runAnalyzePage ["data: null\n".toList] =
      { state := SessionState.Failed, analysis := failMsg,
        thinking := [], fullText := [] } := by
  rfl

/-- C5: evaluation of streamChat at the failing input.  The record with
the explicit error payload is followed by a content record and a done
record; the chat generator still yields the later content delta and
runs to the terminal frame, because the throw of the error lands in the
catch block reserved for parse failures and is only logged.  The claim
that no later frame is consumed after an error frame therefore fails on
this code path. -/
theorem C5_error_frame_swallowed :
    streamChat
      [ "data: \x7b\"error\":\"boom\"\x7d\n".toList,
        "data: \x7b\"content\":\"later\"\x7d\n".toList,
        "data: \x7b\"done\":true\x7d\n".toList ] = ["later".toList] := by
  rfl

/-- C10: a final complete record not followed by a newline before the
transport closes is never parsed or yielded: both generators behave
exactly as on the same stream with that record removed, whatever the
record carries and however the stream was chunked. -/
theorem C10_unterminated_record_dropped (chunks : List LC) (s rec : LC)
    (hcat : chunks.flatten = s ++ rec) (hrec : '\n' ∉ rec) :
    streamAnalyzePage chunks = streamAnalyzePage [s] ∧
    streamChat chunks = streamChat [s] := by
  have hlines : sseLines chunks = sseLines [s] := by
    rw [sseLines_eq, sseLines_eq, hcat]
    have hflat : ([s] : List LC).flatten = s := by simp
    rw [hflat]
    rw [splitNl_append s rec, splitNl_no_nl hrec]
    cases hs : splitNl s with
    | nil => exact absurd hs (splitNl_ne_nil s)
    | cons l ls =>
      show ((l :: ls).dropLast ++ consFirst ((l :: ls).getLastD []) [rec]).dropLast
        = (l :: ls).dropLast
      rw [show consFirst ((l :: ls).getLastD []) [rec] =
        [(l :: ls).getLastD [] ++ rec] from rfl]
      rw [List.dropLast_concat]
  constructor
  · unfold streamAnalyzePage
    rw [hlines]
  · unfold streamChat
    rw [hlines]

theorem C10_witness :
    (["data: \x7b\"content\":\"A\"\x7d\ndata: ".toList,
        "\x7b\"done\":true\x7d".toList] : List LC).flatten =
      "data: \x7b\"content\":\"A\"\x7d\n".toList ++
        "data: \x7b\"done\":true\x7d".toList ∧
    '\n' ∉ "data: \x7b\"done\":true\x7d".toList ∧
    (streamAnalyzePage ["data: \x7b\"content\":\"A\"\x7d\ndata: ".toList,
        "\x7b\"done\":true\x7d".toList] =
      streamAnalyzePage ["data: \x7b\"content\":\"A\"\x7d\n".toList] ∧
    streamChat ["data: \x7b\"content\":\"A\"\x7d\ndata: ".toList,
        "\x7b\"done\":true\x7d".toList] =
      streamChat ["data: \x7b\"content\":\"A\"\x7d\n".toList]) :=
  ⟨by decide, by decide,
    C10_unterminated_record_dropped
      ["data: \x7b\"content\":\"A\"\x7d\ndata: ".toList,
        "\x7b\"done\":true\x7d".toList]
      "data: \x7b\"content\":\"A\"\x7d\n".toList
      "data: \x7b\"done\":true\x7d".toList (by decide) (by decide)⟩

theorem lineFrame_data (j : LC) :
    lineFrame (dataMarker ++ j) = parseJson j := by
  unfold lineFrame
  have hp : dataMarker.isPrefixOf (dataMarker ++ j) = true :=
    List.isPrefixOf_iff_prefix.mpr (List.prefix_append _ _)
  rw [hp]
  simp only [if_true]
  rw [List.drop_left]

theorem no_nl_dataLine {j : LC} (hj : '\n' ∉ j) : '\n' ∉ dataMarker ++ j := by
  intro hmem
  rcases List.mem_append.mp hmem with h | h
  · revert h
    decide
  · exact hj h

/-- C7: a stream of four newline terminated records, the second of
which fails to parse, still delivers both content frames in order to
both consumers; the malformed record is skipped without ending the
stream, the chat generator yields exactly the two content deltas, and
the analyze session completes with both deltas accumulated when the
terminal frame arrives. -/
theorem C7_malformed_record_skipped (chunks : List LC)
    (j1 jm j2 jt : LC) (o1 o2 ot : JVal) (a b : LC)
    (hcat : chunks.flatten =
      (dataMarker ++ j1) ++ '\n' :: ((dataMarker ++ jm) ++ '\n' ::
        ((dataMarker ++ j2) ++ '\n' :: ((dataMarker ++ jt) ++ ['\n']))))
    (hn1 : '\n' ∉ j1) (hnm : '\n' ∉ jm) (hn2 : '\n' ∉ j2) (hnt : '\n' ∉ jt)
    (hp1 : parseJson j1 = some o1) (hpm : parseJson jm = none)
    (hp2 : parseJson j2 = some o2) (hpt : parseJson jt = some ot)
    (he1 : truthy (getField o1 errorKey) = false)
    (he2 : truthy (getField o2 errorKey) = false)
    (het : truthy (getField ot errorKey) = false)
    (hd1 : truthy (getField o1 doneKey) = false)
    (hd2 : truthy (getField o2 doneKey) = false)
    (hdt : truthy (getField ot doneKey) = true)
    (hc1 : getField o1 contentKey = some (.jstr a)) (ha : a ≠ [])
    (hc2 : getField o2 contentKey = some (.jstr b)) (hb : b ≠ [])
    (hct : getField ot contentKey = none) :
    streamAnalyzePage chunks = [o1, o2, ot] ∧
    streamChat chunks = [a, b] ∧
    (runAnalyzePage chunks).state = SessionState.Completed ∧
    (runAnalyzePage chunks).fullText = a ++ b := by
  have hlines : sseLines chunks =
      [dataMarker ++ j1, dataMarker ++ jm, dataMarker ++ j2,
        dataMarker ++ jt] := by
    rw [sseLines_eq, hcat]
    rw [splitNl_line _ (no_nl_dataLine hn1), splitNl_line _ (no_nl_dataLine hnm),
      splitNl_line _ (no_nl_dataLine hn2)]
    have hlast : (dataMarker ++ jt) ++ ['\n'] =
        (dataMarker ++ jt) ++ '\n' :: [] := rfl
    rw [hlast, splitNl_line _ (no_nl_dataLine hnt)]
    rfl
  have ha' : (!a.isEmpty) = true := by
    cases a with
    | nil => exact absurd rfl ha
    | cons x xs => rfl
  have hb' : (!b.isEmpty) = true := by
    cases b with
    | nil => exact absurd rfl hb
    | cons x xs => rfl
  have hcT1 : truthy (getField o1 contentKey) = true := by
    rw [hc1]
    simpa [truthy, truthyV] using ha'
  have hcT2 : truthy (getField o2 contentKey) = true := by
    rw [hc2]
    simpa [truthy, truthyV] using hb'
  have hcTt : truthy (getField ot contentKey) = false := by
    rw [hct]
    rfl
  have hgd1 : (getField o1 contentKey).getD .jnull = .jstr a := by
    rw [hc1]
    rfl
  have hgd2 : (getField o2 contentKey).getD .jnull = .jstr b := by
    rw [hc2]
    rfl
  have hframes : streamAnalyzePage chunks = [o1, o2, ot] := by
    unfold streamAnalyzePage
    rw [hlines]
    simp [analyzeFrames, lineFrame_data, hp1, hpm, hp2, hpt, hd1, hd2, hdt]
  refine ⟨hframes, ?_, ?_⟩
  · unfold streamChat
    rw [hlines]
    simp [chatDeltas, lineFrame_data, hp1, hpm, hp2, hpt, he1, he2, het,
      hd1, hd2, hdt, hcT1, hcT2, hgd1, hgd2, jsToString_jstr]
  · have hne : ∀ f ∈ streamAnalyzePage chunks,
        isNullV f = false ∧ truthy (getField f errorKey) = false := by
      rw [hframes]
      intro f hf
      rcases List.mem_cons.mp hf with h | hf
      · subst h; exact ⟨notNull_of_getField_some hc1, he1⟩
      rcases List.mem_cons.mp hf with h | hf
      · subst h; exact ⟨notNull_of_getField_some hc2, he2⟩
      rcases List.mem_cons.mp hf with h | hf
      · subst h; exact ⟨notNull_of_truthy_getField hdt, het⟩
      · exact absurd hf (List.not_mem_nil f)
    unfold runAnalyzePage
    rw [consumeAnalyze_no_error _ _ _ hne, hframes]
    rw [finishAnalyze_state, finishAnalyze_fullText]
    refine ⟨rfl, ?_⟩
    simp [contentsUntilDone, hcT1, hcT2, hcTt, hd1, hd2, hdt, hgd1, hgd2,
      jsToString_jstr]

def c7Chunk : LC :=
  ("data: \x7b\"content\":\"A\"\x7d\n" ++ "data: \x7boops\n" ++
    "data: \x7b\"content\":\"B\"\x7d\n" ++
    "data: \x7b\"done\":true\x7d\n").toList

def c7o1 : JVal := .jobj [("content".toList, .jstr "A".toList)]

def c7o2 : JVal := .jobj [("content".toList, .jstr "B".toList)]

def c7ot : JVal := .jobj [("done".toList, .jbool true)]

theorem C7_witness :
    parseJson "\x7boops".toList = none ∧
    (streamAnalyzePage [c7Chunk] = [c7o1, c7o2, c7ot] ∧
    streamChat [c7Chunk] = ["A".toList, "B".toList] ∧
    (runAnalyzePage [c7Chunk]).state = SessionState.Completed ∧
    (runAnalyzePage [c7Chunk]).fullText = "A".toList ++ "B".toList) :=
  ⟨by rfl,
    C7_malformed_record_skipped [c7Chunk]
      "\x7b\"content\":\"A\"\x7d".toList "\x7boops".toList
      "\x7b\"content\":\"B\"\x7d".toList "\x7b\"done\":true\x7d".toList
      c7o1 c7o2 c7ot "A".toList "B".toList
      (by decide) (by decide) (by decide) (by decide) (by decide)
      (by rfl) (by rfl) (by rfl) (by rfl)
      (by rfl) (by rfl) (by rfl) (by rfl) (by rfl) (by rfl)
      (by rfl) (by decide) (by rfl) (by decide) (by rfl)⟩

/-- C1 counterexample: two invocations of analyzeCurrentPage in a row,
as the auto analyze effect performs on a page change while a stream is
still running, leave two sessions Streaming and none Cancelled; the
slot does not keep at most one active session and the first session is
not cancelled. -/
theorem C1_counterexample :
    countStreaming (startAnalyze (startAnalyze initSlot)) = 2 ∧
    (startAnalyze (startAnalyze initSlot)).sessions =
      [SessionState.Streaming, SessionState.Streaming] ∧
    SessionState.Cancelled ∉ (startAnalyze (startAnalyze initSlot)).sessions := by
  decide

/-- C1 amended: starting a new analysis stream performs no cancellation
at all: every prior session keeps its state, the number of Streaming
sessions grows by one, and if one was already Streaming the slot ends
with at least two Streaming sessions and an unchanged number of
Cancelled ones. -/
theorem C1_start_does_not_cancel (s : SlotState)
    (h : SessionState.Streaming ∈ s.sessions) :
    (startAnalyze s).sessions.take s.sessions.length = s.sessions ∧
    countStreaming (startAnalyze s) = countStreaming s + 1 ∧
    2 ≤ countStreaming (startAnalyze s) ∧
    (startAnalyze s).sessions.count SessionState.Cancelled =
      s.sessions.count SessionState.Cancelled := by
  unfold startAnalyze countStreaming
  refine ⟨List.take_left _ _, ?_, ?_, ?_⟩
  · rw [List.count_append]
    rfl
  · rw [List.count_append]
    have h1 : 1 ≤ s.sessions.count SessionState.Streaming :=
      List.one_le_count_iff.mpr h
    have h2 : ([SessionState.Streaming] : List SessionState).count
        SessionState.Streaming = 1 := rfl
    omega
  · rw [List.count_append]
    have : ([SessionState.Streaming] : List SessionState).count
        SessionState.Cancelled = 0 := rfl
    omega

theorem C1_witness :
    SessionState.Streaming ∈
      (SlotState.mk [SessionState.Streaming]).sessions ∧
    ((startAnalyze (SlotState.mk [SessionState.Streaming])).sessions.take
        (SlotState.mk [SessionState.Streaming]).sessions.length =
      (SlotState.mk [SessionState.Streaming]).sessions ∧
    countStreaming (startAnalyze (SlotState.mk [SessionState.Streaming])) =
      countStreaming (SlotState.mk [SessionState.Streaming]) + 1 ∧
    2 ≤ countStreaming (startAnalyze (SlotState.mk [SessionState.Streaming])) ∧
    (startAnalyze (SlotState.mk [SessionState.Streaming])).sessions.count
        SessionState.Cancelled =
      (SlotState.mk [SessionState.Streaming]).sessions.count
        SessionState.Cancelled) :=
  ⟨by decide, C1_start_does_not_cancel (SlotState.mk [SessionState.Streaming])
    (by decide)⟩

/-- C8 counterexample: calling saveChatAsNote with an open document and
an empty transcript returns the silent early exit: nothing reaches the
notes service, and no failure of any kind is produced for the caller,
against the claim that a PreconditionError is surfaced as an immediate
failure. -/
theorem C8_counterexample :
    saveChatAsNote (some "doc.pdf".toList) [] [] "T".toList =
      SaveResult.noop := by
  decide

/-- C8 amended: a save with no open document or with an empty
transcript is rejected synchronously before any store call, but as a
silent no op: the function returns without posting to the NoteStore and
without surfacing any failure to the caller. -/
theorem C8_empty_save_noop (filename : Option LC) (msgs : List ChatMsg)
    (noteTitle defaultTitle : LC)
    (h : msgs = [] ∨ filename = none ∨ filename = some []) :
    saveChatAsNote filename msgs noteTitle defaultTitle = SaveResult.noop := by
  unfold saveChatAsNote
  rcases h with h | h | h
  · subst h
    cases filename with
    | none => rfl
    | some f => simp
  · subst h
    rfl
  · subst h
    rfl

theorem C8_witness :
    (([] : List ChatMsg) = [] ∨ (some "doc.pdf".toList : Option LC) = none ∨
      (some "doc.pdf".toList : Option LC) = some []) ∧
    saveChatAsNote (some "doc.pdf".toList) [] "t".toList "d".toList =
      SaveResult.noop :=
  ⟨Or.inl rfl, C8_empty_save_noop (some "doc.pdf".toList) [] "t".toList
    "d".toList (Or.inl rfl)⟩

theorem containsSub_refl (s : LC) : containsSub s s = true := by
  cases s with
  | nil => rfl
  | cons c t =>
    have h : (c :: t).isPrefixOf (c :: t) = true :=
      List.isPrefixOf_iff_prefix.mpr (List.prefix_refl _)
    simp [containsSub, h]

theorem containsSub_mono_right {b pat : LC} (a : LC)
    (h : containsSub b pat = true) : containsSub (a ++ b) pat = true := by
  induction a with
  | nil => exact h
  | cons c a' ih =>
    simp only [List.cons_append, containsSub, Bool.or_eq_true]
    exact Or.inr ih

theorem containsSub_mono_left {a pat : LC} (b : LC)
    (h : containsSub a pat = true) : containsSub (a ++ b) pat = true := by
  induction a with
  | nil =>
    simp only [containsSub] at h
    have := List.isPrefixOf_iff_prefix.mp h
    have hnil : pat = [] := List.prefix_nil.mp this
    subst hnil
    rw [List.nil_append]
    exact containsSub_refl b |> fun _ => by
      cases b with
      | nil => rfl
      | cons c t =>
        simp [containsSub, List.isPrefixOf_iff_prefix]
  | cons c a' ih =>
    simp only [containsSub, Bool.or_eq_true] at h
    simp only [List.cons_append, containsSub, Bool.or_eq_true]
    rcases h with h | h
    · left
      rw [ List.isPrefixOf_iff_prefix] at h ⊢
      exact h.trans (List.prefix_append _ _)
    · exact Or.inr (ih h)

theorem joinSep_contains_of_mem (sep : LC) : ∀ (xs : List LC) (pat : LC),
    (∃ x ∈ xs, containsSub x pat = true) →
    containsSub (joinSep sep xs) pat = true := by
  intro xs
  induction xs with
  | nil =>
    intro pat h
    obtain ⟨x, hx, _⟩ := h
    exact absurd hx (List.not_mem_nil x)
  | cons x xs ih =>
    intro pat h
    obtain ⟨y, hy, hcy⟩ := h
    cases xs with
    | nil =>
      rcases List.mem_singleton.mp hy with h
      subst h
      exact hcy
    | cons z zs =>
      rcases List.mem_cons.mp hy with h | h
      · subst h
        show containsSub (y ++ sep ++ joinSep sep (z :: zs)) pat = true
        exact containsSub_mono_left _ (containsSub_mono_left _ hcy)
      · show containsSub (x ++ sep ++ joinSep sep (z :: zs)) pat = true
        rw [List.append_assoc]
        exact containsSub_mono_right _
          (containsSub_mono_right _ (ih pat ⟨y, h, hcy⟩))

/-- C9 counterexample: saving a one message transcript whose text holds
a think block passes the raw text, markers and reasoning included, to
the notes service; the content differs from the reasoning free body the
claim describes. -/
theorem C9_counterexample :
    saveChatAsNote (some "doc.pdf".toList)
        [ChatMsg.mk "Hi <think>why</think>!".toList false] [] "T".toList =
      SaveResult.saved "T".toList
        "**AI**: Hi <think>why</think>!".toList ∧
    containsSub "**AI**: Hi <think>why</think>!".toList openTag = true ∧
    specNoteContent [ChatMsg.mk "Hi <think>why</think>!".toList false] =
      "**AI**: Hi !".toList ∧
    "**AI**: Hi <think>why</think>!".toList ≠
      specNoteContent [ChatMsg.mk "Hi <think>why</think>!".toList false] := by
  decide

/-- C9 amended: for every non empty transcript with an open document,
the content posted to the notes service is the role labelled join of
the turns raw texts with a blank line between turns; Reasoning segments
are not excluded, every turn text appears verbatim, markers included,
in the note body. -/
theorem C9_note_content_verbatim (f : LC) (msgs : List ChatMsg)
    (noteTitle defaultTitle : LC) (hf : f ≠ []) (hm : msgs ≠ []) :
    saveChatAsNote (some f) msgs noteTitle defaultTitle =
      SaveResult.saved
        (if (jsTrim noteTitle).isEmpty then defaultTitle else jsTrim noteTitle)
        (renderChatContent msgs) ∧
    ∀ m ∈ msgs, containsSub (renderChatContent msgs) m.text = true := by
  constructor
  · unfold saveChatAsNote
    have hf' : f.isEmpty = false := by
      cases f with
      | nil => exact absurd rfl hf
      | cons c t => rfl
    have hm' : msgs.isEmpty = false := by
      cases msgs with
      | nil => exact absurd rfl hm
      | cons m ms => rfl
    simp [hf', hm']
  · intro m hmem
    unfold renderChatContent
    apply joinSep_contains_of_mem
    refine ⟨roleLabel m, List.mem_map_of_mem roleLabel hmem, ?_⟩
    unfold roleLabel
    rw [List.append_assoc, List.append_assoc]
    exact containsSub_mono_right _
      (containsSub_mono_right _ (containsSub_mono_right _ (containsSub_refl _)))

theorem C9_witness :
    ("d".toList : LC) ≠ [] ∧
    ([ChatMsg.mk "Hi <think>w</think>".toList false] : List ChatMsg) ≠ [] ∧
    (saveChatAsNote (some "d".toList)
        [ChatMsg.mk "Hi <think>w</think>".toList false] [] "T".toList =
      SaveResult.saved
        (if (jsTrim ([] : LC)).isEmpty then "T".toList else jsTrim ([] : LC))
        (renderChatContent [ChatMsg.mk "Hi <think>w</think>".toList false]) ∧
    ∀ m ∈ [ChatMsg.mk "Hi <think>w</think>".toList false],
      containsSub
        (renderChatContent [ChatMsg.mk "Hi <think>w</think>".toList false])
        m.text = true) :=
  ⟨by decide, by decide,
    C9_note_content_verbatim "d".toList
      [ChatMsg.mk "Hi <think>w</think>".toList false] [] "T".toList
      (by decide) (by decide)⟩

end PdfAI
